import Mathlib

/-!
Shallow embedding of the ccmon benchmarking harness (github.com/tzneal/ccmon)
for specification checking.

The embedding covers:
* `src/scenario/runner.go` — the `Scenario`/`Deployment`/`Event` data model,
  `Deployment.K8sName`, `Scenario.Validate` (including the repeat-event
  expansion and final sort), and the scale-update retry loop of
  `Runner.execute`;
* `src/scenario/costmonitor.go` — the `CostMonitor` shared state
  (node map, node-price map, pod map, accumulator fields), the mutators
  `addNode`/`removeNode`/`updatePod`/`deletePod`, and the per-tick bodies of
  `monitorPendingPods` (fast timer, 250 ms) and `logCost` (slow timer, 1 s).

Modelling conventions:
* Go `time.Duration` values are integers (we use `Int`, with seconds as the
  unit in concrete examples; all the arithmetic involved is `+` and `<`/`>`,
  which are unit-invariant).
* Go `float64` accumulator arithmetic is modelled over `ℚ` (exact reals for
  the dyadic/decimal constants involved); "within floating-point tolerance"
  statements become exact rational identities.
* Go maps are modelled as association lists with `upsert`/`eraseKey`/`lookupA`
  mirroring assignment, `delete`, and indexing (indexing a `map[string]float64`
  at a missing key yields the zero value, modelled by `(lookupA ...).getD 0`).
* External collaborators appear as parameters: the label-selector parser
  (`metav1.ParseToLabelSelector`) as a `String → Bool` success predicate, the
  pricing oracle (`pprov.OnDemandPrice`) as a `String → Option ℚ`, and the
  Kubernetes get-scale/update-scale calls as per-attempt success predicates
  `Nat → Bool`.
-/

namespace Ccmon

/-! ### Association-list maps (model of Go `map[string]V`) -/

/-- Map assignment `m[k] = v`: replaces the binding for `k` if present,
otherwise appends one. Keeps keys unique when starting from `[]`. -/
def upsert (k : String) (v : α) : List (String × α) → List (String × α)
  | [] => [(k, v)]
  | (k', v') :: rest => if k' = k then (k, v) :: rest else (k', v') :: upsert k v rest

/-- Map deletion `delete(m, k)`: removes every binding for `k`. -/
def eraseKey (k : String) (l : List (String × α)) : List (String × α) :=
  l.filter (fun p => p.1 ≠ k)

/-- Map lookup `m[k]`, distinguishing absence (`none`). -/
def lookupA (k : String) : List (String × α) → Option α
  | [] => none
  | (k', v) :: rest => if k' = k then some v else lookupA k rest

/-- The key set of an association list. -/
def keysOf (l : List (String × α)) : List String := l.map Prod.fst

/-! ### Scenario data model (`runner.go`) -/

/-- A scaling event: `Event{Time, Deployment, Replicas}`. The private
`deployment *Deployment` back-pointer set during validation carries no
information beyond the name resolution checked by validation and is omitted. -/
structure Event where
  time : Int
  deployment : String
  replicas : Int
deriving Repr, DecidableEq

/-- A workload spec: `Deployment{Name, CPU, Memory}`. The CPU/memory
`resource.Quantity` fields are opaque external values not consulted by any
modelled operation and are omitted. -/
structure Deployment where
  name : String
deriving Repr, DecidableEq

/-- `Scenario` as decoded from YAML. -/
structure Scenario where
  name : String
  duration : Int
  deployments : List Deployment
  repeatAfter : Option Int
  events : List Event
  nodeSelector : Option String
deriving Repr, DecidableEq

/-- `Deployment.K8sName`:
`strings.Replace(fmt.Sprintf("ccmon-%s", d.Name), " ", "-", -1)` —
the pattern is the single character `' '`, so the replacement is the
character-wise map sending spaces to hyphens. -/
def Deployment.k8sName (d : Deployment) : String :=
  String.mk (("ccmon-" ++ d.name).data.map (fun c => if c = ' ' then '-' else c))

/-- The inner body of the repeat-expansion `for nextStart < s.Duration` loop:
one outer iteration walks the original events, incrementing the running
`nextStart` by each event's own offset and emitting a copy at the updated
`nextStart`, then adds `RepeatAfter`. `fuel` bounds the number of outer
iterations; since each Go iteration that terminates must raise `nextStart`
by at least one duration unit, `duration.toNat + 1` outer iterations are
enough to reproduce every terminating Go execution (the loop condition is
re-checked here on every call, so surplus fuel is never consumed). -/
def expandLoop (events : List Event) (repeatAfter duration : Int) :
    Nat → Int → List Event → List Event
  | 0, _, acc => acc
  | fuel + 1, nextStart, acc =>
    if nextStart < duration then
      let (ns, acc') := events.foldl
        (fun (p : Int × List Event) ev =>
          let ns := p.1 + ev.time
          (ns, p.2 ++ [{ ev with time := ns }]))
        (nextStart, acc)
      expandLoop events repeatAfter duration fuel (ns + repeatAfter) acc'
    else acc

/-- The repeat expansion of `Scenario.Validate`: `nextStart` starts at the
maximum event offset (folded from 0) plus `RepeatAfter`, and the loop emits
`newEvents` until `nextStart` reaches the scenario duration. Returns the
`newEvents` slice that `Validate` appends to `s.Events`. -/
def expandRepeats (events : List Event) (repeatAfter duration : Int) : List Event :=
  let maxT := events.foldl (fun acc ev => if ev.time > acc then ev.time else acc) 0
  expandLoop events repeatAfter duration (duration.toNat + 1) (maxT + repeatAfter) []

/-- Insert `ev` after every element whose time is `≤ ev.time`: the insertion
step of a stable sort that is non-decreasing in `Time`. -/
def insertEv (ev : Event) : List Event → List Event
  | [] => [ev]
  | e :: rest => if e.time ≤ ev.time then e :: insertEv ev rest else ev :: e :: rest

/-- The final `sort.SliceStable(…, Events[i].Time < Events[j].Time)`: a stable
sort producing a list non-decreasing in `Time` (elements arriving later are
inserted after equal-time elements already placed, preserving their relative
order exactly as `SliceStable` does). -/
def sortEvents (events : List Event) : List Event :=
  events.foldl (fun acc ev => insertEv ev acc) []

/-- `Scenario.Validate`, parametrised by the external label-selector parser
success predicate `parseSel` (`metav1.ParseToLabelSelector`). Checks in source
order: empty name, zero duration, no events, malformed node selector,
duplicate deployment names (Go compares the size of a name-keyed map with the
slice length; the number of distinct names is `…​.dedup.length`), events
referencing unknown deployments; then expands repeats and sorts by time.
On success it returns the scenario with its final event list. -/
def Scenario.validate (parseSel : String → Bool) (s : Scenario) :
    Except String Scenario :=
  if s.name = "" then .error "scenario has no name"
  else if s.duration = 0 then .error "scenario has zero length duration"
  else if s.events = [] then .error "scenario has no events"
  else if (match s.nodeSelector with
           | some sel => !parseSel sel
           | none => false) then .error "invalid node selector"
  else if (s.deployments.map Deployment.name).dedup.length ≠ s.deployments.length then
    .error "duplicate deployment names"
  else if s.events.any
      (fun ev => !((s.deployments.map Deployment.name).contains ev.deployment)) then
    .error "unknown deployment"
  else
    let evs :=
      match s.repeatAfter with
      | some ra => s.events ++ expandRepeats s.events ra s.duration
      | none => s.events
    .ok { s with events := sortEvents evs }

/-! ### CostMonitor state (`costmonitor.go`) -/

/-- A tracked node, reduced to the fields the monitor consults: its `Name`
and the value of its `node.Labels[v1.LabelInstanceTypeStable]` label. -/
structure Node where
  name : String
  instanceType : String
deriving Repr, DecidableEq

/-- A pod scheduling phase; only `Pending` is distinguished by the monitor. -/
inductive PodPhase where
  | pending
  | running
  | other
deriving Repr, DecidableEq

/-- The mutable `CostMonitor` fields the claims are about: the `nodes` map
(keyed by node name), the `nodePrices` map, the `pods` map (keyed by UID,
reduced to phase), and the accumulator fields `cumulativeCost`,
`pendingPodSeconds`, `pendingPods`. -/
structure CMState where
  nodes : List (String × Node)
  nodePrices : List (String × ℚ)
  pods : List (String × PodPhase)
  cumulativeCost : ℚ
  pendingPodSeconds : ℚ
  pendingPods : Nat
deriving Repr, DecidableEq

/-- The freshly constructed monitor (`NewCostMonitor`): empty maps, zero
accumulators. -/
def CMState.init : CMState :=
  { nodes := [], nodePrices := [], pods := [],
    cumulativeCost := 0, pendingPodSeconds := 0, pendingPods := 0 }

/-- `CostMonitor.addNode` (invoked on watch `Added` and `Modified` events):
stores the node under its name, then resolves `OnDemandPrice` of its
instance-type label through the pricing oracle; on a hit the price is
recorded, on a miss the lookup failure is only logged (no price entry is
written and none is removed). -/
def addNode (oracle : String → Option ℚ) (st : CMState) (node : Node) : CMState :=
  let nodes := upsert node.name node st.nodes
  match oracle node.instanceType with
  | some price => { st with nodes, nodePrices := upsert node.name price st.nodePrices }
  | none => { st with nodes }

/-- `CostMonitor.removeNode` (watch `Deleted`): deletes the node entry and
its price entry. -/
def removeNode (st : CMState) (node : Node) : CMState :=
  { st with nodes := eraseKey node.name st.nodes,
            nodePrices := eraseKey node.name st.nodePrices }

/-- `CostMonitor.updatePod` (watch `Added`/`Modified`): stores the pod under
its UID. -/
def updatePod (st : CMState) (uid : String) (phase : PodPhase) : CMState :=
  { st with pods := upsert uid phase st.pods }

/-- `CostMonitor.deletePod` (watch `Deleted`): removes the pod entry. -/
def deletePod (st : CMState) (uid : String) : CMState :=
  { st with pods := eraseKey uid st.pods }

/-- The pending-pod count recomputed from the pod snapshot:
`for _, p := range c.pods { if p.Status.Phase == v1.PodPending { … } }`. -/
def pendingCount (st : CMState) : Nat :=
  (st.pods.filter (fun p => p.2 = PodPhase.pending)).length

/-- One tick of the fast (250 ms) timer, the loop body of
`CostMonitor.monitorPendingPods`: recompute `pendingPods` from the pod
snapshot and add `pendingPods × 0.25` to `pendingPodSeconds`
(0.25 s is the tick interval; `0.25` is exact in both `float64` and `ℚ`). -/
def monitorPendingPodsTick (st : CMState) : CMState :=
  let n := pendingCount st
  { st with pendingPods := n,
            pendingPodSeconds := st.pendingPodSeconds + (n : ℚ) * (1 / 4) }

/-- The instantaneous hourly burn rate computed by `logCost`:
`for _, n := range c.nodes { perHourCost += c.nodePrices[n.Name] }` —
a node whose name has no price entry contributes the map zero value `0`. -/
def perHourCost (st : CMState) : ℚ :=
  st.nodes.foldl (fun acc p => acc + (lookupA p.2.name st.nodePrices).getD 0) 0

/-- The contribution of a single tracked node to `perHourCost`: the value
`c.nodePrices[name]` read with the Go map zero-value default. -/
def nodeContribution (st : CMState) (name : String) : ℚ :=
  (lookupA name st.nodePrices).getD 0

/-- One tick of the slow (1 s) timer, the loop body of `CostMonitor.logCost`:
`c.cumulativeCost += perHourCost / 3600.0` (the hourly rate integrated over
the 1-second tick), after which a CSV row is written — the row does not
change the monitor state. -/
def logCostTick (st : CMState) : CMState :=
  { st with cumulativeCost := st.cumulativeCost + perHourCost st / 3600 }

/-- The events that mutate the monitor state during a run: node watch
notifications (`Added` and `Modified` both invoke `addNode`), pod watch
notifications, and the two timer ticks. -/
inductive Msg where
  | nodeAdded (n : Node)
  | nodeModified (n : Node)
  | nodeDeleted (n : Node)
  | podAdded (uid : String) (phase : PodPhase)
  | podModified (uid : String) (phase : PodPhase)
  | podDeleted (uid : String)
  | fastTick
  | slowTick
deriving Repr, DecidableEq

/-- The state transition for one event, dispatching exactly as the watch
loops and timer loops of `costmonitor.go` do. -/
def step (oracle : String → Option ℚ) (st : CMState) : Msg → CMState
  | .nodeAdded n => addNode oracle st n
  | .nodeModified n => addNode oracle st n
  | .nodeDeleted n => removeNode st n
  | .podAdded uid ph => updatePod st uid ph
  | .podModified uid ph => updatePod st uid ph
  | .podDeleted uid => deletePod st uid
  | .fastTick => monitorPendingPodsTick st
  | .slowTick => logCostTick st

/-- A run: fold the step function over a sequence of events. -/
def run (oracle : String → Option ℚ) (st : CMState) (msgs : List Msg) : CMState :=
  msgs.foldl (step oracle) st

/-- Modelled from the spec (refinement reference, not source code): the
"analytically integrated sum of `price/3600 × interval` per tick" — for each
slow-timer tick in the event sequence, the sum of the hourly prices of the
nodes tracked at that tick divided by 3600 (interval = 1 s), accumulated
along the run. -/
def specAnalyticCost (oracle : String → Option ℚ) (st : CMState) : List Msg → ℚ
  | [] => 0
  | .slowTick :: rest =>
    perHourCost st / 3600 + specAnalyticCost oracle (step oracle st .slowTick) rest
  | m :: rest => specAnalyticCost oracle (step oracle st m) rest

/-! ### Scale-update retry loop (`Runner.execute`) -/

/-- The outcome of the scale-update loop for one event. `readFailed` is the
early `return` after a failed `GetScale` (the event is abandoned, logged);
`exhausted` is falling out of the loop with every `UpdateScale` having
conflicted (failure logged on the 100th try); in each case `execute` returns
to its caller and the scenario continues. -/
inductive ScaleOutcome where
  | success (attemptsUsed : Nat)
  | readFailed (attemptsUsed : Nat)
  | exhausted
deriving Repr, DecidableEq

/-- The number of read-modify-write attempts an outcome consumed
(`exhausted` means all 100 were used). -/
def ScaleOutcome.attempts : ScaleOutcome → Nat
  | .success n => n
  | .readFailed n => n
  | .exhausted => 100

/-- The body of `for try := 0; try < 100; try++` in `Runner.execute`, with
the cluster calls abstracted as per-attempt success predicates: `read i`
tells whether the `GetScale` of attempt `i` succeeds, `write i` whether its
`UpdateScale` succeeds (false = conflict). A failed read returns immediately;
a successful write breaks out of the loop; a conflict retries. `fuel` is the
number of loop iterations remaining, `100 - t` where `t` is Go's `try`
counter (`try` is reserved in Lean). -/
def executeFrom (read write : Nat → Bool) : Nat → Nat → ScaleOutcome
  | 0, _ => .exhausted
  | fuel + 1, t =>
    if read t = false then .readFailed (t + 1)
    else if write t then .success (t + 1)
    else executeFrom read write fuel (t + 1)

/-- `Runner.execute`'s retry loop: at most 100 attempts starting from
`try = 0`. -/
def execute (read write : Nat → Bool) : ScaleOutcome :=
  executeFrom read write 100 0

/-! ### Invariant predicates -/

/-- All recorded node prices are non-negative. -/
def PricesNonneg (st : CMState) : Prop := ∀ p ∈ st.nodePrices, 0 ≤ p.2

/-- The key set of the node price map is contained in the tracked-node
name set. -/
def PriceKeysSub (st : CMState) : Prop :=
  ∀ k ∈ keysOf st.nodePrices, k ∈ keysOf st.nodes

/-! Concrete inputs for counterexamples and witnesses -/

def c1scn : Scenario :=
  { name := "repeat", duration := 30, deployments := [⟨"w"⟩],
    repeatAfter := some 10,
    events := [⟨0, "w", 1⟩, ⟨5, "w", 2⟩], nodeSelector := none }

def scn9 : Scenario :=
  { name := "sorted", duration := 10, deployments := [⟨"w"⟩], repeatAfter := none,
    events := [⟨7, "w", 3⟩, ⟨2, "w", 1⟩], nodeSelector := none }

def scn9out : Scenario := { scn9 with events := [⟨2, "w", 1⟩, ⟨7, "w", 3⟩] }

def scn10 : Scenario :=
  { name := "names", duration := 5, deployments := [⟨"a b"⟩, ⟨"a-b"⟩],
    repeatAfter := none, events := [⟨0, "a b", 1⟩], nodeSelector := none }

def oracle7 : String → Option ℚ := fun t => if t = "m5.large" then some 5 else none

def node7a : Node := ⟨"n1", "m5.large"⟩

def node7b : Node := ⟨"n1", "odd.type"⟩

def st7 : CMState := addNode oracle7 (addNode oracle7 CMState.init node7a) node7b

def st3pods : CMState := updatePod (updatePod CMState.init "p1" .pending) "p2" .pending

/-! ### Supporting lemmas -/

end Ccmon
namespace Ccmon

theorem addNode_effects (oracle : String → Option ℚ) (st : CMState) (n : Node) :
    (addNode oracle st n).cumulativeCost = st.cumulativeCost ∧
    (addNode oracle st n).pendingPodSeconds = st.pendingPodSeconds ∧
    (addNode oracle st n).pods = st.pods ∧
    (addNode oracle st n).pendingPods = st.pendingPods := by
  cases h : oracle n.instanceType <;> simp [addNode, h]

theorem step_cumulativeCost_of_ne (oracle : String → Option ℚ) (st : CMState)
    (m : Msg) (h : m ≠ .slowTick) :
    (step oracle st m).cumulativeCost = st.cumulativeCost := by
  cases m <;>
    simp_all [step, removeNode, updatePod, deletePod, monitorPendingPodsTick,
      addNode_effects oracle st]

theorem specAnalyticCost_cons_ne (oracle : String → Option ℚ) (st : CMState)
    (m : Msg) (rest : List Msg) (h : m ≠ .slowTick) :
    specAnalyticCost oracle st (m :: rest)
      = specAnalyticCost oracle (step oracle st m) rest := by
  cases m <;> first | rfl | exact absurd rfl h

theorem run_cumulativeCost (oracle : String → Option ℚ) (st : CMState)
    (msgs : List Msg) :
    (run oracle st msgs).cumulativeCost
      = st.cumulativeCost + specAnalyticCost oracle st msgs := by
  induction msgs generalizing st with
  | nil => simp [run, specAnalyticCost]
  | cons m rest ih =>
    have hrun : run oracle st (m :: rest) = run oracle (step oracle st m) rest := rfl
    by_cases h : m = .slowTick
    · subst h
      rw [hrun, ih]
      simp [specAnalyticCost, step, logCostTick]
      ring
    · rw [hrun, ih, specAnalyticCost_cons_ne oracle st m rest h,
        step_cumulativeCost_of_ne oracle st m h]

theorem monitorPendingPodsTick_pods (st : CMState) :
    (monitorPendingPodsTick st).pods = st.pods := rfl

theorem pendingCount_tick (st : CMState) :
    pendingCount (monitorPendingPodsTick st) = pendingCount st := rfl

theorem run_fastTicks (oracle : String → Option ℚ) (st : CMState) (N : Nat) :
    (run oracle st (List.replicate N .fastTick)).pendingPodSeconds
      = st.pendingPodSeconds + (N : ℚ) * (pendingCount st : ℚ) * (1 / 4) := by
  induction N generalizing st with
  | zero => simp [run]
  | succ n ih =>
    have : run oracle st (List.replicate (n + 1) .fastTick)
        = run oracle (monitorPendingPodsTick st) (List.replicate n .fastTick) := by
      simp [List.replicate_succ, run, step]
    rw [this, ih, pendingCount_tick]
    simp [monitorPendingPodsTick]
    ring


/-! C4 development -/

theorem lookupA_mem {α : Type} {l : List (String × α)} {k : String} {v : α}
    (h : lookupA k l = some v) : (k, v) ∈ l := by
  induction l with
  | nil => simp [lookupA] at h
  | cons p rest ih =>
    obtain ⟨a, b⟩ := p
    simp only [lookupA] at h
    split at h
    · rename_i heq
      injection h with h'
      subst h'
      subst heq
      exact List.mem_cons_self _ _
    · right
      exact ih h

theorem perHourCost_nonneg (st : CMState) (hst : PricesNonneg st) :
    0 ≤ perHourCost st := by
  unfold perHourCost
  have key : ∀ (l : List (String × Node)) (acc : ℚ), 0 ≤ acc →
      0 ≤ l.foldl (fun a p => a + (lookupA p.2.name st.nodePrices).getD 0) acc := by
    intro l
    induction l with
    | nil => intro acc h; simpa using h
    | cons p rest ih =>
      intro acc hacc
      simp only [List.foldl_cons]
      apply ih
      have : 0 ≤ (lookupA p.2.name st.nodePrices).getD 0 := by
        cases h : lookupA p.2.name st.nodePrices with
        | none => simp
        | some v => simpa using hst _ (lookupA_mem h)
      linarith
  exact key st.nodes 0 le_rfl

theorem mem_upsert {α : Type} {p : String × α} {k : String} {v : α}
    {l : List (String × α)} (h : p ∈ upsert k v l) : p = (k, v) ∨ p ∈ l := by
  induction l with
  | nil => simp [upsert] at h; simp [h]
  | cons q rest ih =>
    simp only [upsert] at h
    split at h
    · rcases List.mem_cons.1 h with h' | h'
      · exact Or.inl h'
      · exact Or.inr (List.mem_cons.2 (Or.inr h'))
    · rcases List.mem_cons.1 h with h' | h'
      · exact Or.inr (List.mem_cons.2 (Or.inl h'))
      · rcases ih h' with h'' | h''
        · exact Or.inl h''
        · exact Or.inr (List.mem_cons.2 (Or.inr h''))

theorem pricesNonneg_step (oracle : String → Option ℚ)
    (hor : ∀ t q, oracle t = some q → 0 ≤ q)
    (st : CMState) (hst : PricesNonneg st) (m : Msg) :
    PricesNonneg (step oracle st m) := by
  cases m with
  | nodeAdded n =>
    show PricesNonneg (addNode oracle st n)
    cases h : oracle n.instanceType with
    | none => simpa [addNode, h, PricesNonneg] using hst
    | some q =>
      intro p hp
      simp only [addNode, h] at hp
      rcases mem_upsert hp with h' | h'
      · subst h'; exact hor _ _ h
      · exact hst _ h'
  | nodeModified n =>
    show PricesNonneg (addNode oracle st n)
    cases h : oracle n.instanceType with
    | none => simpa [addNode, h, PricesNonneg] using hst
    | some q =>
      intro p hp
      simp only [addNode, h] at hp
      rcases mem_upsert hp with h' | h'
      · subst h'; exact hor _ _ h
      · exact hst _ h'
  | nodeDeleted n =>
    intro p hp
    exact hst _ (List.mem_of_mem_filter hp)
  | podAdded uid ph => exact hst
  | podModified uid ph => exact hst
  | podDeleted uid => exact hst
  | fastTick => exact hst
  | slowTick => exact hst

theorem step_pendingPodSeconds_of_ne (oracle : String → Option ℚ) (st : CMState)
    (m : Msg) (h : m ≠ .fastTick) :
    (step oracle st m).pendingPodSeconds = st.pendingPodSeconds := by
  cases m <;>
    simp_all [step, removeNode, updatePod, deletePod, logCostTick,
      addNode_effects oracle st]

theorem step_monotone (oracle : String → Option ℚ) (st : CMState)
    (hst : PricesNonneg st) (m : Msg) :
    st.cumulativeCost ≤ (step oracle st m).cumulativeCost ∧
    st.pendingPodSeconds ≤ (step oracle st m).pendingPodSeconds := by
  by_cases hs : m = .slowTick
  · subst hs
    constructor
    · have := perHourCost_nonneg st hst
      show st.cumulativeCost ≤ st.cumulativeCost + perHourCost st / 3600
      linarith
    · exact le_of_eq (step_pendingPodSeconds_of_ne oracle st .slowTick nofun).symm
  · by_cases hf : m = .fastTick
    · subst hf
      constructor
      · exact le_of_eq (step_cumulativeCost_of_ne oracle st .fastTick nofun).symm
      · show st.pendingPodSeconds ≤ st.pendingPodSeconds + (pendingCount st : ℚ) * (1 / 4)
        have hc : (0 : ℚ) ≤ (pendingCount st : ℚ) * (1 / 4) := by positivity
        linarith
    · constructor
      · exact le_of_eq (step_cumulativeCost_of_ne oracle st m hs).symm
      · exact le_of_eq (step_pendingPodSeconds_of_ne oracle st m hf).symm

theorem run_monotone (oracle : String → Option ℚ)
    (hor : ∀ t q, oracle t = some q → 0 ≤ q)
    (st : CMState) (hst : PricesNonneg st) (msgs : List Msg) :
    st.cumulativeCost ≤ (run oracle st msgs).cumulativeCost ∧
    st.pendingPodSeconds ≤ (run oracle st msgs).pendingPodSeconds ∧
    PricesNonneg (run oracle st msgs) := by
  induction msgs generalizing st with
  | nil => exact ⟨le_rfl, le_rfl, hst⟩
  | cons m rest ih =>
    have hstep := step_monotone oracle st hst m
    have hinv := pricesNonneg_step oracle hor st hst m
    have hrest := ih (step oracle st m) hinv
    exact ⟨le_trans hstep.1 hrest.1, le_trans hstep.2 hrest.2.1, hrest.2.2⟩


/-! C8 development -/

theorem mem_keysOf_upsert {α : Type} (k k' : String) (v : α)
    (l : List (String × α)) :
    k ∈ keysOf (upsert k' v l) ↔ k = k' ∨ k ∈ keysOf l := by
  induction l with
  | nil => simp [upsert, keysOf]
  | cons p rest ih =>
    obtain ⟨a, b⟩ := p
    by_cases h : a = k'
    · subst h
      simp [upsert, keysOf]
    · simp only [upsert, if_neg h, keysOf, List.map_cons, List.mem_cons]
      rw [show keysOf (upsert k' v rest) = (upsert k' v rest).map Prod.fst from rfl] at ih
      rw [show keysOf rest = rest.map Prod.fst from rfl] at ih
      tauto

theorem mem_keysOf_eraseKey {α : Type} (k k' : String) (l : List (String × α)) :
    k ∈ keysOf (eraseKey k' l) ↔ k ∈ keysOf l ∧ k ≠ k' := by
  simp only [keysOf, eraseKey, List.mem_map, List.mem_filter]
  constructor
  · rintro ⟨p, ⟨hp, hne⟩, rfl⟩
    exact ⟨⟨p, hp, rfl⟩, by simpa using hne⟩
  · rintro ⟨⟨p, hp, rfl⟩, hne⟩
    exact ⟨p, ⟨hp, by simpa using hne⟩, rfl⟩

theorem priceKeysSub_init : PriceKeysSub CMState.init := by
  intro k hk
  simp [CMState.init, keysOf] at hk

theorem priceKeysSub_step (oracle : String → Option ℚ) (st : CMState)
    (hst : PriceKeysSub st) (m : Msg) : PriceKeysSub (step oracle st m) := by
  cases m with
  | nodeAdded n =>
    show PriceKeysSub (addNode oracle st n)
    cases h : oracle n.instanceType with
    | none =>
      intro k hk
      simp only [addNode, h] at hk ⊢
      exact (mem_keysOf_upsert k n.name n st.nodes).2 (Or.inr (hst k hk))
    | some q =>
      intro k hk
      simp only [addNode, h] at hk ⊢
      rcases (mem_keysOf_upsert k n.name q st.nodePrices).1 hk with h' | h'
      · exact (mem_keysOf_upsert k n.name n st.nodes).2 (Or.inl h')
      · exact (mem_keysOf_upsert k n.name n st.nodes).2 (Or.inr (hst k h'))
  | nodeModified n =>
    show PriceKeysSub (addNode oracle st n)
    cases h : oracle n.instanceType with
    | none =>
      intro k hk
      simp only [addNode, h] at hk ⊢
      exact (mem_keysOf_upsert k n.name n st.nodes).2 (Or.inr (hst k hk))
    | some q =>
      intro k hk
      simp only [addNode, h] at hk ⊢
      rcases (mem_keysOf_upsert k n.name q st.nodePrices).1 hk with h' | h'
      · exact (mem_keysOf_upsert k n.name n st.nodes).2 (Or.inl h')
      · exact (mem_keysOf_upsert k n.name n st.nodes).2 (Or.inr (hst k h'))
  | nodeDeleted n =>
    intro k hk
    rw [show (step oracle st (.nodeDeleted n)).nodePrices
        = eraseKey n.name st.nodePrices from rfl] at hk
    rw [show (step oracle st (.nodeDeleted n)).nodes
        = eraseKey n.name st.nodes from rfl]
    rcases (mem_keysOf_eraseKey k n.name st.nodePrices).1 hk with ⟨h1, h2⟩
    exact (mem_keysOf_eraseKey k n.name st.nodes).2 ⟨hst k h1, h2⟩
  | podAdded uid ph => exact hst
  | podModified uid ph => exact hst
  | podDeleted uid => exact hst
  | fastTick => exact hst
  | slowTick => exact hst

/-! C7 development -/

theorem lookupA_upsert_self {α : Type} (k : String) (v : α)
    (l : List (String × α)) : lookupA k (upsert k v l) = some v := by
  induction l with
  | nil => simp [upsert, lookupA]
  | cons p rest ih =>
    obtain ⟨a, b⟩ := p
    by_cases h : a = k
    · subst h; simp [upsert, lookupA]
    · simp [upsert, lookupA, h, ih]

theorem logCostTick_iter_maps (k : Nat) (st : CMState) :
    (logCostTick^[k] st).nodePrices = st.nodePrices ∧
    (logCostTick^[k] st).nodes = st.nodes ∧
    (logCostTick^[k] st).pods = st.pods := by
  induction k with
  | zero => simp
  | succ n ih =>
    rw [Function.iterate_succ_apply']
    simpa [logCostTick] using ih


/-! C6 development -/

theorem executeFrom_attempts_le (read write : Nat → Bool) :
    ∀ fuel t, t + fuel = 100 → (executeFrom read write fuel t).attempts ≤ 100 := by
  intro fuel
  induction fuel with
  | zero => intro t h; simp [executeFrom, ScaleOutcome.attempts]
  | succ n ih =>
    intro t h
    simp only [executeFrom]
    split
    · simp [ScaleOutcome.attempts]; omega
    · split
      · simp [ScaleOutcome.attempts]; omega
      · exact ih (t + 1) (by omega)

theorem executeFrom_all_conflict (read write : Nat → Bool)
    (hr : ∀ i, read i = true) (hw : ∀ i, write i = false) :
    ∀ fuel t, executeFrom read write fuel t = .exhausted := by
  intro fuel
  induction fuel with
  | zero => intro t; rfl
  | succ n ih => intro t; simp [executeFrom, hr t, hw t, ih]

theorem executeFrom_read_fail (read write : Nat → Bool) (k : Nat)
    (hpre : ∀ i, i < k → read i = true ∧ write i = false)
    (hk : read k = false) :
    ∀ fuel t, t ≤ k → k < t + fuel →
      executeFrom read write fuel t = .readFailed (k + 1) := by
  intro fuel
  induction fuel with
  | zero => intro t h1 h2; omega
  | succ n ih =>
    intro t h1 h2
    by_cases ht : t = k
    · subst ht; simp [executeFrom, hk]
    · have hlt : t < k := lt_of_le_of_ne h1 ht
      have hp := hpre t hlt
      simp [executeFrom, hp.1, hp.2]
      exact ih (t + 1) hlt (by omega)


/-! C5 development -/

theorem dedup_length_ne_iff (l : List String) :
    l.dedup.length ≠ l.length ↔ ¬ l.Nodup := by
  constructor
  · intro h hnd
    exact h (by rw [hnd.dedup])
  · intro h hlen
    apply h
    have hsub : l.dedup.Sublist l := List.dedup_sublist l
    have heq : l.dedup = l := hsub.eq_of_length hlen
    rw [← heq]
    exact List.nodup_dedup l

theorem selector_guard_iff (p : String → Bool) (s : Scenario) :
    ((match s.nodeSelector with
      | some sel => !p sel
      | none => false) = true) ↔
      ∃ sel, s.nodeSelector = some sel ∧ p sel = false := by
  cases h : s.nodeSelector with
  | none => simp
  | some sel => simp [Bool.not_eq_true']

theorem unknown_guard_iff (s : Scenario) :
    (s.events.any
        (fun ev => !((s.deployments.map Deployment.name).contains ev.deployment))
      = true) ↔
      ∃ ev ∈ s.events, ev.deployment ∉ s.deployments.map Deployment.name := by
  simp [List.any_eq_true, List.contains, List.elem_iff]

theorem nodup_of_dedup_len (l : List String) (h : l.dedup.length = l.length) :
    l.Nodup := by
  have hsub : l.dedup.Sublist l := List.dedup_sublist l
  have heq : l.dedup = l := hsub.eq_of_length h
  rw [← heq]
  exact List.nodup_dedup l

/-- C5: scenario validation returns an error if and only if the name is
empty, the duration is zero, the event list is empty, the node selector is
present and fails to parse, two workload specs share a name, or an event
references a workload name not in the spec list; otherwise it succeeds and
produces the scenario. -/
theorem validate_error_iff (p : String → Bool) (s : Scenario) :
    (∃ e, s.validate p = .error e) ↔
      (s.name = "" ∨ s.duration = 0 ∨ s.events = [] ∨
       (∃ sel, s.nodeSelector = some sel ∧ p sel = false) ∨
       ¬ (s.deployments.map Deployment.name).Nodup ∨
       (∃ ev ∈ s.events, ev.deployment ∉ s.deployments.map Deployment.name)) := by
  unfold Scenario.validate
  split_ifs with h1 h2 h3 h4 h5 h6
  · exact iff_of_true ⟨_, rfl⟩ (Or.inl h1)
  · exact iff_of_true ⟨_, rfl⟩ (Or.inr (Or.inl h2))
  · exact iff_of_true ⟨_, rfl⟩ (Or.inr (Or.inr (Or.inl h3)))
  · exact iff_of_true ⟨_, rfl⟩
      (Or.inr (Or.inr (Or.inr (Or.inl ((selector_guard_iff p s).1 h4)))))
  · refine iff_of_true ⟨_, rfl⟩
      (Or.inr (Or.inr (Or.inr (Or.inr (Or.inl ?_)))))
    intro hnd
    apply h5
    rw [hnd.dedup, List.length_map]
  · exact iff_of_true ⟨_, rfl⟩
      (Or.inr (Or.inr (Or.inr (Or.inr (Or.inr ((unknown_guard_iff s).1 h6))))))
  · refine iff_of_false ?_ ?_
    · rintro ⟨e, he⟩
      exact he.elim
    · rintro (h | h | h | h | h | h)
      · exact h1 h
      · exact h2 h
      · exact h3 h
      · exact h4 ((selector_guard_iff p s).2 h)
      · refine h (nodup_of_dedup_len _ ?_)
        have h5' := not_not.1 (by simpa using h5)
        rw [h5', List.length_map]
      · exact h6 ((unknown_guard_iff s).2 h)


/-! C9 development -/

theorem mem_insertEv (x ev : Event) (l : List Event) :
    x ∈ insertEv ev l ↔ x = ev ∨ x ∈ l := by
  induction l with
  | nil => simp [insertEv]
  | cons e rest ih =>
    unfold insertEv
    split
    · simp [ih]
      tauto
    · simp
      try tauto

theorem insertEv_sorted (ev : Event) (l : List Event)
    (h : l.Pairwise (fun a b => a.time ≤ b.time)) :
    (insertEv ev l).Pairwise (fun a b => a.time ≤ b.time) := by
  induction l with
  | nil => simp [insertEv]
  | cons e rest ih =>
    rcases List.pairwise_cons.1 h with ⟨he, hrest⟩
    unfold insertEv
    split
    · rename_i hle
      refine List.pairwise_cons.2 ⟨?_, ih hrest⟩
      intro x hx
      rcases (mem_insertEv x ev rest).1 hx with rfl | hx'
      · exact hle
      · exact he x hx'
    · rename_i hgt
      push_neg at hgt
      refine List.pairwise_cons.2 ⟨?_, h⟩
      intro x hx
      rcases List.mem_cons.1 hx with rfl | hx'
      · exact le_of_lt hgt
      · exact le_trans (le_of_lt hgt) (he x hx')

theorem sortEvents_sorted (l : List Event) :
    (sortEvents l).Pairwise (fun a b => a.time ≤ b.time) := by
  unfold sortEvents
  suffices key : ∀ acc : List Event, acc.Pairwise (fun a b => a.time ≤ b.time) →
      (l.foldl (fun acc ev => insertEv ev acc) acc).Pairwise
        (fun a b => a.time ≤ b.time) by
    exact key [] (by simp)
  induction l with
  | nil => intro acc h; simpa using h
  | cons e rest ih =>
    intro acc h
    simp only [List.foldl_cons]
    exact ih (insertEv e acc) (insertEv_sorted e acc h)

/-- C9: whenever validation succeeds (including any repeat expansion), the
resulting scenario's event list is sorted in non-decreasing order of time
offset. -/
theorem validate_sorted (p : String → Bool) (s s' : Scenario)
    (h : s.validate p = .ok s') :
    s'.events.Pairwise (fun a b => a.time ≤ b.time) := by
  unfold Scenario.validate at h
  split_ifs at h
  · injection h with h'
    rw [← h']
    exact sortEvents_sorted _


/-! ### Claim theorems -/

/-- C1 (counterexample): for the scenario with events at offsets 0 s and 5 s,
total duration 30 s and repeat interval 10 s, the expansion performed during
validation does not produce events at offsets 0,5,15,20,25 — the produced
offsets are exactly 0,5,15,20, and in particular no event at offset 25
exists. -/
theorem repeat_expansion_offsets_counterexample :
    ((c1scn.validate (fun _ => true)).toOption.map
        (fun s => s.events.map Event.time)) = some [0, 5, 15, 20] ∧
    ¬ ((c1scn.validate (fun _ => true)).toOption.map
        (fun s => s.events.map Event.time)) = some [0, 5, 15, 20, 25] ∧
    (25 : Int) ∉ ([0, 5, 15, 20] : List Int) := by decide

/-- C1 (amended): for a scenario with events at offsets 0 s and 5 s, total
duration 30 s and repeat interval 10 s, the event-list expansion performed
during validation produces events at exactly the offsets 0 s, 5 s, 15 s,
20 s (the expansion advances a running cursor by the repeat interval and by
each event's own offset cumulatively, so after emitting 15 s and 20 s the
cursor reaches 30 s and the cycle that would contain 25 s is never begun). -/
theorem repeat_expansion_offsets_amended :
    ((c1scn.validate (fun _ => true)).toOption.map
        (fun s => s.events.map Event.time)) = some [0, 5, 15, 20] := by decide

/-- C2: on every slow-timer tick the cumulative cost increases by exactly
(sum of hourly prices of all currently tracked nodes) × tickIntervalSeconds
/ 3600 with tickIntervalSeconds = 1, and consequently for any fixed sequence
of node add/remove (and other) events the final cumulative cost equals the
analytic per-tick sum of price/3600 × interval (exactly, in the rational
model of the float arithmetic). -/
theorem logCost_integration (oracle : String → Option ℚ) (st : CMState) :
    ((step oracle st .slowTick).cumulativeCost
        = st.cumulativeCost + perHourCost st * 1 / 3600) ∧
    ∀ msgs : List Msg, (run oracle st msgs).cumulativeCost
        = st.cumulativeCost + specAnalyticCost oracle st msgs := by
  constructor
  · show (logCostTick st).cumulativeCost = _
    simp [logCostTick]
  · intro msgs
    exact run_cumulativeCost oracle st msgs

/-- C3: if the tracked-pod snapshot holds a constant number `count` of
pending pods across `N` consecutive fast-timer ticks, `pendingPodSeconds`
increases by exactly `N × count × 0.25`, the pending count being recomputed
from the pod snapshot on each tick. -/
theorem pendingPodSeconds_constant_count (oracle : String → Option ℚ)
    (st : CMState) (count N : Nat) (h : pendingCount st = count) :
    (run oracle st (List.replicate N .fastTick)).pendingPodSeconds
      = st.pendingPodSeconds + (N : ℚ) * (count : ℚ) * (1 / 4) := by
  subst h
  exact run_fastTicks oracle st N

theorem pendingPodSeconds_constant_count_witness :
    (run (fun _ => none) st3pods (List.replicate 3 .fastTick)).pendingPodSeconds
      = st3pods.pendingPodSeconds + (3 : ℚ) * (2 : ℚ) * (1 / 4) :=
  pendingPodSeconds_constant_count (fun _ => none) st3pods 2 3 (by decide)

/-- C4: when every price the pricing oracle can record is non-negative (and
every already-recorded price is non-negative), each single step — in
particular each fast-timer and slow-timer tick — adds a non-negative amount
to `cumulativeCost` and `pendingPodSeconds`, and along any event sequence
both fields are monotonically non-decreasing. -/
theorem cost_accumulators_monotone (oracle : String → Option ℚ)
    (hor : ∀ t q, oracle t = some q → 0 ≤ q)
    (st : CMState) (hst : PricesNonneg st) :
    (∀ m : Msg, st.cumulativeCost ≤ (step oracle st m).cumulativeCost ∧
        st.pendingPodSeconds ≤ (step oracle st m).pendingPodSeconds) ∧
    (∀ msgs : List Msg,
        st.cumulativeCost ≤ (run oracle st msgs).cumulativeCost ∧
        st.pendingPodSeconds ≤ (run oracle st msgs).pendingPodSeconds) := by
  refine ⟨step_monotone oracle st hst, fun msgs => ?_⟩
  obtain ⟨h1, h2, _⟩ := run_monotone oracle hor st hst msgs
  exact ⟨h1, h2⟩

theorem cost_accumulators_monotone_witness :
    CMState.init.cumulativeCost
        ≤ (run (fun _ => some 1) CMState.init
            [.nodeAdded ⟨"n", "m5.large"⟩, .slowTick]).cumulativeCost ∧
    CMState.init.pendingPodSeconds
        ≤ (run (fun _ => some 1) CMState.init
            [.nodeAdded ⟨"n", "m5.large"⟩, .slowTick]).pendingPodSeconds :=
  (cost_accumulators_monotone (fun _ => some 1)
      (fun _ q h => by rw [← Option.some.inj h]; norm_num)
      CMState.init (fun p hp => absurd hp (by simp [CMState.init]))).2 _

/-- C6: the scale-update loop makes at most 100 read-modify-write attempts;
if every write attempt conflicts (reads succeeding) it exhausts the budget
and returns the logged-failure outcome rather than failing the run; and a
failed read on any attempt aborts that single event immediately, with no
further retries. -/
theorem execute_retry_contract :
    (∀ read write : Nat → Bool, (execute read write).attempts ≤ 100) ∧
    (∀ read write : Nat → Bool, (∀ i, read i = true) → (∀ i, write i = false) →
        execute read write = .exhausted) ∧
    (∀ read write : Nat → Bool, ∀ k : Nat, k < 100 →
        (∀ i, i < k → read i = true ∧ write i = false) → read k = false →
        execute read write = .readFailed (k + 1)) := by
  refine ⟨fun read write => executeFrom_attempts_le read write 100 0 rfl,
    fun read write hr hw => executeFrom_all_conflict read write hr hw 100 0,
    fun read write k hk hpre hrk => ?_⟩
  exact executeFrom_read_fail read write k hpre hrk 100 0 (Nat.zero_le k)
    (by omega)

theorem execute_retry_contract_witness :
    execute (fun _ => true) (fun _ => false) = .exhausted :=
  execute_retry_contract.2.1 (fun _ => true) (fun _ => false)
    (fun _ => rfl) (fun _ => rfl)

/-- C7 (counterexample): a node first added with a successful price lookup
and then modified with a failing lookup stays tracked, the failed lookup
records nothing — but the stale price entry survives, so the node
contributes its old price (5), not zero, to the per-hour burn rate on
subsequent slow-timer ticks. -/
theorem addNode_miss_counterexample :
    oracle7 node7b.instanceType = none ∧
    lookupA node7b.name st7.nodes = some node7b ∧
    nodeContribution st7 node7b.name = 5 ∧
    ¬ nodeContribution st7 node7b.name = 0 := by decide

/-- C7 (amended): when a node add or modify event arrives, its pricing
lookup fails, and the node has no previously recorded price entry, the node
is still inserted into the tracked-node set, no price entry is recorded for
it, no error is raised (the operation returns a state), and on every
subsequent slow-timer tick the node contributes exactly zero to the
per-hour burn rate. -/
theorem addNode_miss_zero_contribution (oracle : String → Option ℚ)
    (st : CMState) (n : Node)
    (hmiss : oracle n.instanceType = none)
    (hfresh : lookupA n.name st.nodePrices = none) :
    lookupA n.name (addNode oracle st n).nodes = some n ∧
    lookupA n.name (addNode oracle st n).nodePrices = none ∧
    ∀ k, nodeContribution (logCostTick^[k] (addNode oracle st n)) n.name = 0 := by
  have hnp : (addNode oracle st n).nodePrices = st.nodePrices := by
    simp [addNode, hmiss]
  have hnodes : (addNode oracle st n).nodes = upsert n.name n st.nodes := by
    simp [addNode, hmiss]
  refine ⟨?_, ?_, ?_⟩
  · rw [hnodes]
    exact lookupA_upsert_self n.name n st.nodes
  · rw [hnp]
    exact hfresh
  · intro k
    unfold nodeContribution
    rw [(logCostTick_iter_maps k _).1, hnp, hfresh]
    rfl

theorem addNode_miss_zero_contribution_witness :
    nodeContribution (logCostTick^[2]
        (addNode (fun _ => none) CMState.init ⟨"n", "t"⟩)) "n" = 0 :=
  (addNode_miss_zero_contribution (fun _ => none) CMState.init ⟨"n", "t"⟩
      rfl rfl).2.2 2

/-- C8: the key set of the node price map is contained in the tracked node
name set: the containment holds in the initial (empty) state and is
preserved by every tracker mutation — in particular `addNode`, which only
records a price for the node it simultaneously tracks, and `removeNode`,
which deletes both entries. -/
theorem price_keys_subset_invariant :
    PriceKeysSub CMState.init ∧
    ∀ (oracle : String → Option ℚ) (st : CMState) (m : Msg),
      PriceKeysSub st → PriceKeysSub (step oracle st m) :=
  ⟨priceKeysSub_init, fun oracle st m h => priceKeysSub_step oracle st h m⟩

theorem price_keys_subset_invariant_witness :
    PriceKeysSub (step oracle7 CMState.init (.nodeAdded node7a)) :=
  price_keys_subset_invariant.2 oracle7 CMState.init (.nodeAdded node7a)
    (fun k hk => absurd hk (by simp [CMState.init, keysOf]))

theorem validate_sorted_witness :
    scn9out.events.Pairwise (fun a b => a.time ≤ b.time) :=
  validate_sorted (fun _ => true) scn9 scn9out rfl

/-- C10: the cluster object name of a workload spec is "ccmon-" prepended to
the spec name with spaces replaced by hyphens; the mapping is not injective:
"a b" and "a-b" are names that validation accepts as distinct yet they map
to the same cluster object name. -/
theorem k8sName_collision :
    Deployment.k8sName ⟨"a b"⟩ = Deployment.k8sName ⟨"a-b"⟩ ∧
    ("a b" : String) ≠ "a-b" ∧
    (scn10.validate (fun _ => true)).isOk = true := by decide

end Ccmon
